import Mathlib

/-!
Verification of the User Directory Store of this repository.

The store layer (`db.ts`) is not present under `src/`; only its unit tests
(`src/unnamed/part_000`) and its HTTP-handler callers (`src/routes/index.tsx`)
are.  The entity model and the five operations are therefore modelled from the
specification (sections 3, 4.1 and 6), and checked against the behaviour the
in-repository tests pin down.  The key-value namespaces are embedded as
association lists kept in ascending key order, matching the spec's "ordered
key-value store" primitive; the atomic check-and-set transaction of each
operation becomes a pure function that performs all of its assertions before
building the new store, returning `Except` on a failed assertion.
-/

/-- Modelled from the spec: the `User` entity of the missing `db.ts` — login
(primary key), sessionId, optional stripeCustomerId, isSubscribed, and an
opaque profile payload passed through unchanged. -/
structure User where
  login : String
  sessionId : String
  stripeCustomerId : Option String
  isSubscribed : Bool
  payload : String
  deriving DecidableEq, Repr

/-- One key-value namespace of the ordered store: an association list of
entries, maintained in ascending key order by the write operations. -/
abbrev Kv := List (String × User)

/-- Point read of the ordered key-value store: first value bound to `k`. -/
def kvGet (k : String) : Kv → Option User
  | [] => none
  | p :: rest => if p.1 = k then some p.2 else kvGet k rest

/-- Point delete: removes every entry bound to `k`. -/
def kvDelete (k : String) : Kv → Kv
  | [] => []
  | p :: rest => if p.1 = k then kvDelete k rest else p :: kvDelete k rest


/-- Boolean lexicographic comparison of key character data, written with
structural recursion so that it evaluates by kernel reduction. -/
def keyLtb : List Char → List Char → Bool
  | [], [] => false
  | [], _ :: _ => true
  | _ :: _, [] => false
  | a :: as, b :: bs =>
    if a < b then true
    else if b < a then false
    else keyLtb as bs

/-- The storage order on keys: lexicographic on the key's characters. -/
def keyLt (s t : String) : Prop := keyLtb s.data t.data = true

instance (s t : String) : Decidable (keyLt s t) :=
  inferInstanceAs (Decidable (keyLtb s.data t.data = true))

theorem char_eq_of_not_lt {a b : Char} (h1 : ¬ a < b) (h2 : ¬ b < a) : a = b :=
  le_antisymm (not_lt.mp h2) (not_lt.mp h1)

theorem keyLtb_irrefl : ∀ x : List Char, keyLtb x x = false := by
  intro x
  induction x with
  | nil => rfl
  | cons a as ih => simp [keyLtb, lt_irrefl, ih]

theorem keyLtb_asymm : ∀ x y : List Char, keyLtb x y = true →
    keyLtb y x = false := by
  intro x
  induction x with
  | nil =>
    intro y h
    cases y with
    | nil => simp [keyLtb] at h
    | cons b bs => rfl
  | cons a as ih =>
    intro y h
    cases y with
    | nil => simp [keyLtb] at h
    | cons b bs =>
      by_cases hab : a < b
      · have hba : ¬ b < a := lt_asymm hab
        simp [keyLtb, hba, hab]
      · by_cases hba : b < a
        · simp [keyLtb, hab, hba] at h
        · have h' : keyLtb as bs = true := by
            simpa [keyLtb, hab, hba] using h
          simp [keyLtb, hab, hba, ih bs h']

theorem keyLtb_trans : ∀ x y z : List Char, keyLtb x y = true →
    keyLtb y z = true → keyLtb x z = true := by
  intro x
  induction x with
  | nil =>
    intro y z h1 h2
    cases y with
    | nil => simp [keyLtb] at h1
    | cons b bs =>
      cases z with
      | nil => simp [keyLtb] at h2
      | cons c cs => rfl
  | cons a as ih =>
    intro y z h1 h2
    cases y with
    | nil => simp [keyLtb] at h1
    | cons b bs =>
      cases z with
      | nil => simp [keyLtb] at h2
      | cons c cs =>
        by_cases hab : a < b
        · by_cases hbc : b < c
          · have hac : a < c := lt_trans hab hbc
            simp [keyLtb, hac]
          · by_cases hcb : c < b
            · simp [keyLtb, hbc, hcb] at h2
            · have hbc' : b = c := char_eq_of_not_lt hbc hcb
              have hac : a < c := hbc' ▸ hab
              simp [keyLtb, hac]
        · by_cases hba : b < a
          · simp [keyLtb, hab, hba] at h1
          · have hab' : a = b := char_eq_of_not_lt hab hba
            subst hab'
            by_cases hac : a < c
            · simp [keyLtb, hac]
            · by_cases hca : c < a
              · simp [keyLtb, hac, hca] at h2
              · have h1' : keyLtb as bs = true := by
                  simpa [keyLtb, lt_irrefl] using h1
                have h2' : keyLtb bs cs = true := by
                  simpa [keyLtb, hac, hca] using h2
                simp [keyLtb, hac, hca, ih bs cs h1' h2']

theorem keyLtb_total : ∀ x y : List Char, keyLtb x y = false →
    keyLtb y x = false → x = y := by
  intro x
  induction x with
  | nil =>
    intro y h1 _
    cases y with
    | nil => rfl
    | cons b bs => simp [keyLtb] at h1
  | cons a as ih =>
    intro y h1 h2
    cases y with
    | nil => simp [keyLtb] at h2
    | cons b bs =>
      by_cases hab : a < b
      · simp [keyLtb, hab] at h1
      · by_cases hba : b < a
        · simp [keyLtb, hba] at h2
        · have hab' : a = b := char_eq_of_not_lt hab hba
          have h1' : keyLtb as bs = false := by
            simpa [keyLtb, hab, hba] using h1
          have h2' : keyLtb bs as = false := by
            simpa [keyLtb, hab, hba] using h2
          rw [hab', ih bs h1' h2']

theorem keyLt_irrefl (s : String) : ¬ keyLt s s := by
  unfold keyLt
  rw [keyLtb_irrefl]
  simp

theorem keyLt_ne {s t : String} (h : keyLt s t) : s ≠ t := by
  intro he
  subst he
  exact keyLt_irrefl s h

theorem keyLt_asymm {s t : String} (h : keyLt s t) : ¬ keyLt t s := by
  unfold keyLt at h ⊢
  rw [keyLtb_asymm _ _ h]
  simp

theorem keyLt_trans {s t u : String} (h1 : keyLt s t) (h2 : keyLt t u) :
    keyLt s u :=
  keyLtb_trans _ _ _ h1 h2

theorem string_eq_of_data_eq {a b : String} (h : a.data = b.data) : a = b := by
  cases a
  cases b
  exact congrArg String.mk (by simpa using h)

theorem keyLt_total {s t : String} (h1 : ¬ keyLt s t) (h2 : s ≠ t) :
    keyLt t s := by
  unfold keyLt at h1 ⊢
  cases hb : keyLtb t.data s.data with
  | true => rfl
  | false =>
    have hab : keyLtb s.data t.data = false := by
      cases ha : keyLtb s.data t.data with
      | false => rfl
      | true => exact absurd ha h1
    exact absurd (string_eq_of_data_eq (keyLtb_total _ _ hab hb)) h2

/-- Order-preserving insertion of a fresh entry into the namespace. -/
def kvInsort (q : String × User) : Kv → Kv
  | [] => [q]
  | p :: rest => if keyLt q.1 p.1 then q :: p :: rest else p :: kvInsort q rest

/-- Point write: binds `k` to `v`, replacing any previous binding and keeping
the namespace in key order. -/
def kvInsert (k : String) (v : User) (l : Kv) : Kv :=
  kvInsort (k, v) (kvDelete k l)

/-- Entries whose key is strictly after the cursor `c`, in order: the tail of
a cursor-based range scan. -/
def keepAfter (c : String) : Kv → Kv
  | [] => []
  | p :: rest => if keyLt c p.1 then p :: keepAfter c rest else keepAfter c rest

/-- The remaining portion of a range scan: everything when no cursor has been
returned yet, otherwise the entries strictly after the cursor. -/
def afterCursor (cursor : Option String) (l : Kv) : Kv :=
  match cursor with
  | none => l
  | some c => keepAfter c l

/-- Modelled from the spec: the committed state of the store — the three
key-value namespaces `user:by-login:*`, `user:by-session:*` and
`user:by-customer:*` of the missing `db.ts`. -/
structure Store where
  byLogin : Kv
  bySession : Kv
  byCustomer : Kv
  deriving DecidableEq, Repr

/-- The empty store. -/
def Store.empty : Store := ⟨[], [], []⟩

/-- Modelled from the spec: the closed set of logical failure outcomes of the
store operations (`AlreadyExists`, `NotFound`, stale-session mismatch). -/
inductive DbError
  | alreadyExists
  | notFound
  | staleSession
  deriving DecidableEq, Repr

/-- Modelled from the spec: `getByLogin` — pure read of the primary key
(the source name, from the tests, is `getUser`). -/
def getUser (db : Store) (login : String) : Option User :=
  kvGet login db.byLogin

/-- Modelled from the spec: `getBySession` — reads the session secondary
index and returns its embedded denormalized `User` value directly. -/
def getUserBySession (db : Store) (sessionId : String) : Option User :=
  kvGet sessionId db.bySession

/-- Modelled from the spec: `getByCustomerId` — reads the billing-customer
secondary index and returns its embedded denormalized `User` value. -/
def getUserByStripeCustomer (db : Store) (customerId : String) : Option User :=
  kvGet customerId db.byCustomer

/-- True when the user's customer-index key is already taken. -/
def customerTaken (db : Store) (user : User) : Bool :=
  match user.stripeCustomerId with
  | some c => (kvGet c db.byCustomer).isSome
  | none => false

/-- Modelled from the spec: `create(user)` of the missing `db.ts` — one
transaction that asserts the primary key, the session-index key and (when
`stripeCustomerId` is set) the customer-index key are all absent, then writes
the primary record and the applicable secondary index records atomically;
any failed assertion rejects the whole transaction with `AlreadyExists`. -/
def createUser (db : Store) (user : User) : Except DbError Store :=
  if (kvGet user.login db.byLogin).isSome then .error .alreadyExists
  else if (kvGet user.sessionId db.bySession).isSome then .error .alreadyExists
  else if customerTaken db user then .error .alreadyExists
  else .ok
    { byLogin := kvInsert user.login user db.byLogin
      bySession := kvInsert user.sessionId user db.bySession
      byCustomer :=
        match user.stripeCustomerId with
        | some c => kvInsert c user db.byCustomer
        | none => db.byCustomer }

/-- The customer-index half of `update`: deletes the old customer-index entry
(when `old` has one) and writes the entry for `newUser.stripeCustomerId`
(when set). -/
def custUpdate (old newUser : User) (byCustomer : Kv) : Kv :=
  let afterDelete :=
    match old.stripeCustomerId with
    | some c => kvDelete c byCustomer
    | none => byCustomer
  match newUser.stripeCustomerId with
  | some c => kvInsert c newUser afterDelete
  | none => afterDelete

/-- Modelled from the spec: `update(newUser)` of the missing `db.ts` — reads
the prior primary record `old` (failing with `NotFound` when absent), then in
one transaction overwrites the primary record, deletes the old session-index
entry and writes the one for `newUser.sessionId`, and deletes the old
customer-index entry and writes the one for `newUser.stripeCustomerId`.
Per the spec's open question, no absence assertion is made on the new
session-index or customer-index keys. -/
def updateUser (db : Store) (newUser : User) : Except DbError Store :=
  match kvGet newUser.login db.byLogin with
  | none => .error .notFound
  | some old => .ok
    { byLogin := kvInsert newUser.login newUser db.byLogin
      bySession :=
        kvInsert newUser.sessionId newUser (kvDelete old.sessionId db.bySession)
      byCustomer := custUpdate old newUser db.byCustomer }

/-- Modelled from the spec: `updateSession(user, newSessionId)` of the missing
`db.ts` — one transaction that asserts the old session-index entry for
`user.sessionId` still exists and still equals `user` (otherwise the whole
operation fails with the stale-session error and performs no writes), deletes
it, writes a session-index entry under `newSessionId` with the session field
updated, and updates the primary record's session field to match.  The
customer index is not touched. -/
def updateUserSession (db : Store) (user : User) (newSessionId : String) :
    Except DbError Store :=
  match kvGet user.sessionId db.bySession with
  | none => .error .staleSession
  | some u =>
    if u = user then
      let newUser := { user with sessionId := newSessionId }
      .ok
        { byLogin := kvInsert user.login newUser db.byLogin
          bySession :=
            kvInsert newSessionId newUser (kvDelete user.sessionId db.bySession)
          byCustomer := db.byCustomer }
    else .error .staleSession

/-- One write operation of the store. -/
inductive Op
  | create (user : User)
  | update (newUser : User)
  | rotate (user : User) (newSessionId : String)
  deriving DecidableEq, Repr

/-- Runs one write operation. -/
def applyOp (db : Store) : Op → Except DbError Store
  | .create user => createUser db user
  | .update newUser => updateUser db newUser
  | .rotate user s => updateUserSession db user s

/-- The committed state after one call: the new store on success, the
unchanged store when the transaction was rejected. -/
def stepStore (db : Store) (op : Op) : Store :=
  match applyOp db op with
  | .ok db' => db'
  | .error _ => db

/-- Modelled from the spec: `listUsers(cursor?, limit?)` of the missing
`db.ts` — an ordered range scan of the primary namespace starting strictly
after the cursor, returning at most `limit` records and, when more remain,
the key of the last returned record as the next cursor. -/
def listUsers (db : Store) (cursor : Option String) (limit : Nat) :
    List User × Option String :=
  let rest := afterCursor cursor db.byLogin
  ((rest.take limit).map Prod.snd,
    if rest.length ≤ limit then none
    else ((rest.take limit).getLast?).map Prod.fst)

/-- Fuel-indexed driver of the full scan. -/
def collectValuesAux (db : Store) (limit : Nat) : Nat → Option String → List User
  | 0, _ => []
  | fuel + 1, cursor =>
    match listUsers db cursor limit with
    | (page, none) => page
    | (page, some c) => page ++ collectValuesAux db limit fuel (some c)

/-- Modelled from the spec and the source caller (`collectValues` over
`listUsers` in the `/api/users` handler): drains the paginated scan from the
start, following the returned cursors. -/
def collectValues (db : Store) (limit : Nat) : List User :=
  collectValuesAux db limit (db.byLogin.length + 1) none

/-- Committed states: stores reachable from the empty store by successful
write operations. -/
inductive Reachable : Store → Prop
  | empty : Reachable Store.empty
  | step {db : Store} {op : Op} {db' : Store} :
      Reachable db → applyOp db op = .ok db' → Reachable db'

/-- Agreement of two user records on every field except `sessionId` (the one
field a session rotation changes without refreshing the customer index). -/
def agrees (v u : User) : Prop :=
  v.login = u.login ∧ v.stripeCustomerId = u.stripeCustomerId ∧
    v.isSubscribed = u.isSubscribed ∧ v.payload = u.payload

instance (v u : User) : Decidable (agrees v u) := by
  unfold agrees; infer_instance

/-- Side condition of a collision-free `update`: the new session-index key is
free, or is the one the user already holds. -/
def sessionFree (db : Store) (old newUser : User) : Prop :=
  kvGet newUser.sessionId db.bySession = none ∨ newUser.sessionId = old.sessionId

/-- Side condition of a collision-free `update`: the new customer-index key is
free, or is the one the user already holds. -/
def customerFree (db : Store) (old newUser : User) : Prop :=
  match newUser.stripeCustomerId with
  | none => True
  | some c => kvGet c db.byCustomer = none ∨ old.stripeCustomerId = some c

instance (db : Store) (old newUser : User) : Decidable (customerFree db old newUser) := by
  unfold customerFree
  cases newUser.stripeCustomerId <;> infer_instance

/-- Committed states reachable by operation sequences in which no `update` or
`updateSession` moves a user onto a session- or customer-index key held by
another user (the collision the spec flags as unchecked). -/
inductive SafeReachable : Store → Prop
  | empty : SafeReachable Store.empty
  | create {db : Store} {user : User} {db' : Store} :
      SafeReachable db → createUser db user = .ok db' → SafeReachable db'
  | update {db : Store} {old newUser : User} {db' : Store} :
      SafeReachable db → kvGet newUser.login db.byLogin = some old →
      sessionFree db old newUser → customerFree db old newUser →
      updateUser db newUser = .ok db' → SafeReachable db'
  | rotate {db : Store} {user : User} {s : String} {db' : Store} :
      SafeReachable db →
      (kvGet s db.bySession = none ∨ s = user.sessionId) →
      updateUserSession db user s = .ok db' → SafeReachable db'

/-- Keys are strictly ascending along the namespace. -/
def SortedKeys (l : Kv) : Prop :=
  List.Pairwise (fun p q : String × User => keyLt p.1 q.1) l

/-- The full consistency invariant of collision-free committed states.
Customer-index entries are only guaranteed to agree with their primary record
up to `sessionId`, because `updateSession` does not refresh them. -/
structure StoreInv (db : Store) : Prop where
  sortedLogin : SortedKeys db.byLogin
  sortedSession : SortedKeys db.bySession
  sortedCustomer : SortedKeys db.byCustomer
  loginKey : ∀ p ∈ db.byLogin, (p.2).login = p.1
  sessionKey : ∀ p ∈ db.bySession, (p.2).sessionId = p.1
  customerKey : ∀ p ∈ db.byCustomer, (p.2).stripeCustomerId = some p.1
  sessionStored : ∀ p ∈ db.bySession, kvGet (p.2).login db.byLogin = some p.2
  customerStored : ∀ p ∈ db.byCustomer,
    ∃ u, kvGet (p.2).login db.byLogin = some u ∧ agrees p.2 u
  sessionComplete : ∀ p ∈ db.byLogin,
    kvGet (p.2).sessionId db.bySession = some p.2
  customerComplete : ∀ p ∈ db.byLogin, ∀ c, (p.2).stripeCustomerId = some c →
    ∃ v, kvGet c db.byCustomer = some v ∧ agrees v p.2

/-! Basic facts about the key-value namespace primitives. -/

theorem kvGet_delete_self (k : String) (l : Kv) : kvGet k (kvDelete k l) = none := by
  induction l with
  | nil => rfl
  | cons p rest ih =>
    by_cases h : p.1 = k
    · simp [kvDelete, h, ih]
    · simp [kvDelete, kvGet, h, ih]

theorem kvGet_delete_ne {k' k : String} (h : k' ≠ k) (l : Kv) :
    kvGet k' (kvDelete k l) = kvGet k' l := by
  induction l with
  | nil => rfl
  | cons p rest ih =>
    by_cases hp : p.1 = k
    · have hpk : ¬ p.1 = k' := fun he => h (he ▸ hp)
      rw [kvDelete, if_pos hp, ih, kvGet, if_neg hpk]
    · by_cases hq : p.1 = k'
      · rw [kvDelete, if_neg hp, kvGet, if_pos hq, kvGet, if_pos hq]
      · rw [kvDelete, if_neg hp, kvGet, if_neg hq, ih, kvGet, if_neg hq]

theorem mem_of_mem_kvDelete {q : String × User} {k : String} {l : Kv}
    (h : q ∈ kvDelete k l) : q ∈ l := by
  induction l with
  | nil => simp [kvDelete] at h
  | cons p rest ih =>
    by_cases hp : p.1 = k
    · simp only [kvDelete, hp, if_true] at h
      exact List.mem_cons_of_mem p (ih h)
    · simp only [kvDelete, hp, if_false, List.mem_cons] at h
      rcases h with h | h
      · exact h ▸ List.mem_cons_self p rest
      · exact List.mem_cons_of_mem p (ih h)

theorem fst_ne_of_mem_kvDelete {q : String × User} {k : String} {l : Kv}
    (h : q ∈ kvDelete k l) : q.1 ≠ k := by
  induction l with
  | nil => simp [kvDelete] at h
  | cons p rest ih =>
    by_cases hp : p.1 = k
    · simp only [kvDelete, hp, if_true] at h
      exact ih h
    · simp only [kvDelete, hp, if_false, List.mem_cons] at h
      rcases h with h | h
      · rw [h]; exact hp
      · exact ih h

theorem mem_kvDelete_of_mem {q : String × User} {k : String} {l : Kv}
    (h : q ∈ l) (hne : q.1 ≠ k) : q ∈ kvDelete k l := by
  induction l with
  | nil => simp at h
  | cons p rest ih =>
    rcases List.mem_cons.mp h with h | h
    · have hp : ¬ p.1 = k := h ▸ hne
      simp only [kvDelete, hp, if_false, List.mem_cons]
      exact Or.inl h
    · by_cases hp : p.1 = k
      · simp only [kvDelete, hp, if_true]
        exact ih h
      · simp only [kvDelete, hp, if_false, List.mem_cons]
        exact Or.inr (ih h)

theorem mem_kvInsort {q p : String × User} {l : Kv} :
    q ∈ kvInsort p l ↔ q = p ∨ q ∈ l := by
  induction l with
  | nil => simp [kvInsort]
  | cons r rest ih =>
    by_cases hr : keyLt p.1 r.1
    · simp [kvInsort, hr, List.mem_cons]
    · simp only [kvInsort, hr, if_false, List.mem_cons, ih]
      tauto

theorem kvGet_kvInsort_self {k : String} {v : User} {l : Kv}
    (h : kvGet k l = none) : kvGet k (kvInsort (k, v) l) = some v := by
  induction l with
  | nil => simp [kvInsort, kvGet]
  | cons p rest ih =>
    have hp : ¬ p.1 = k := by
      intro hpk
      simp [kvGet, hpk] at h
    have hrest : kvGet k rest = none := by
      simpa [kvGet, hp] using h
    by_cases hlt : keyLt k p.1
    · simp [kvInsort, hlt, kvGet]
    · simp [kvInsort, hlt, kvGet, hp, ih hrest]

theorem kvGet_kvInsort_ne {k' k : String} {v : User} {l : Kv} (h : k' ≠ k) :
    kvGet k' (kvInsort (k, v) l) = kvGet k' l := by
  have hk : ¬ (k, v).1 = k' := fun he => h he.symm
  induction l with
  | nil => simp only [kvInsort, kvGet, if_neg hk]
  | cons p rest ih =>
    by_cases hlt : keyLt (k, v).1 p.1
    · rw [kvInsort, if_pos hlt, kvGet, if_neg hk]
    · rw [kvInsort, if_neg hlt]
      by_cases hq : p.1 = k'
      · rw [kvGet, if_pos hq, kvGet, if_pos hq]
      · rw [kvGet, if_neg hq, ih, kvGet, if_neg hq]

theorem kvGet_insert_self (k : String) (v : User) (l : Kv) :
    kvGet k (kvInsert k v l) = some v :=
  kvGet_kvInsort_self (kvGet_delete_self k l)

theorem kvGet_insert_ne {k' k : String} (h : k' ≠ k) (v : User) (l : Kv) :
    kvGet k' (kvInsert k v l) = kvGet k' l := by
  rw [kvInsert, kvGet_kvInsort_ne h, kvGet_delete_ne h]

theorem mem_kvInsert {q : String × User} {k : String} {v : User} {l : Kv} :
    q ∈ kvInsert k v l ↔ q = (k, v) ∨ (q ∈ l ∧ q.1 ≠ k) := by
  rw [kvInsert, mem_kvInsort]
  constructor
  · rintro (h | h)
    · exact Or.inl h
    · exact Or.inr ⟨mem_of_mem_kvDelete h, fst_ne_of_mem_kvDelete h⟩
  · rintro (h | ⟨h, hne⟩)
    · exact Or.inl h
    · exact Or.inr (mem_kvDelete_of_mem h hne)

theorem mem_of_kvGet {k : String} {v : User} {l : Kv}
    (h : kvGet k l = some v) : (k, v) ∈ l := by
  induction l with
  | nil => simp [kvGet] at h
  | cons p rest ih =>
    by_cases hp : p.1 = k
    · rw [kvGet, if_pos hp] at h
      have hv : p.2 = v := Option.some.inj h
      have he : (k, v) = p := by rw [← hp, ← hv]
      exact he ▸ List.mem_cons_self p rest
    · rw [kvGet, if_neg hp] at h
      exact List.mem_cons_of_mem p (ih h)

theorem kvGet_isSome_of_mem {k : String} {v : User} {l : Kv}
    (h : (k, v) ∈ l) : (kvGet k l).isSome = true := by
  induction l with
  | nil => simp at h
  | cons p rest ih =>
    by_cases hp : p.1 = k
    · simp [kvGet, hp]
    · rcases List.mem_cons.mp h with he | hm
      · exact absurd (by rw [← he]) hp
      · simp [kvGet, hp, ih hm]

theorem kvGet_eq_none_iff {k : String} {l : Kv} :
    kvGet k l = none ↔ ∀ p ∈ l, p.1 ≠ k := by
  induction l with
  | nil => simp [kvGet]
  | cons p rest ih =>
    by_cases hp : p.1 = k
    · simp [kvGet, hp]
    · simp only [kvGet, hp, if_false, ih, List.mem_cons]
      constructor
      · rintro h q (hq | hq)
        · rw [hq]; exact hp
        · exact h q hq
      · intro h q hq
        exact h q (Or.inr hq)

theorem sortedKeys_nil : SortedKeys [] :=
  List.Pairwise.nil

theorem sortedKeys_cons {p : String × User} {rest : Kv} :
    SortedKeys (p :: rest) ↔ (∀ q ∈ rest, keyLt p.1 q.1) ∧ SortedKeys rest :=
  List.pairwise_cons

theorem kvGet_of_mem_sorted {k : String} {v : User} {l : Kv}
    (hs : SortedKeys l) (h : (k, v) ∈ l) : kvGet k l = some v := by
  induction l with
  | nil => simp at h
  | cons p rest ih =>
    rw [sortedKeys_cons] at hs
    rcases List.mem_cons.mp h with he | hm
    · rw [← he, kvGet, if_pos rfl]
    · have hk : keyLt p.1 k := hs.1 (k, v) hm
      have hp : ¬ p.1 = k := keyLt_ne hk
      rw [kvGet, if_neg hp]
      exact ih hs.2 hm

theorem sortedKeys_kvDelete {k : String} {l : Kv} (hs : SortedKeys l) :
    SortedKeys (kvDelete k l) := by
  induction l with
  | nil => exact hs
  | cons p rest ih =>
    rw [sortedKeys_cons] at hs
    by_cases hp : p.1 = k
    · rw [kvDelete, if_pos hp]
      exact ih hs.2
    · rw [kvDelete, if_neg hp, sortedKeys_cons]
      exact ⟨fun q hq => hs.1 q (mem_of_mem_kvDelete hq), ih hs.2⟩

theorem sortedKeys_kvInsort {k : String} {v : User} {l : Kv}
    (hs : SortedKeys l) (h : kvGet k l = none) :
    SortedKeys (kvInsort (k, v) l) := by
  induction l with
  | nil =>
    rw [kvInsort, sortedKeys_cons]
    exact ⟨by simp, sortedKeys_nil⟩
  | cons p rest ih =>
    rw [sortedKeys_cons] at hs
    have hp : p.1 ≠ k := kvGet_eq_none_iff.mp h p (List.mem_cons_self p rest)
    have hrest : kvGet k rest = none := by
      rw [kvGet, if_neg hp] at h
      exact h
    by_cases hlt : keyLt (k, v).1 p.1
    · rw [kvInsort, if_pos hlt, sortedKeys_cons]
      refine ⟨?_, ?_⟩
      · intro q hq
        rcases List.mem_cons.mp hq with he | hq
        · rw [he]; exact hlt
        · exact keyLt_trans hlt (hs.1 q hq)
      · rw [sortedKeys_cons]
        exact ⟨hs.1, hs.2⟩
    · have hgt : keyLt p.1 k := keyLt_total hlt (Ne.symm hp)
      rw [kvInsort, if_neg hlt, sortedKeys_cons]
      refine ⟨?_, ih hs.2 hrest⟩
      intro q hq
      rcases mem_kvInsort.mp hq with hq | hq
      · rw [hq]; exact hgt
      · exact hs.1 q hq

theorem sortedKeys_kvInsert {k : String} {v : User} {l : Kv}
    (hs : SortedKeys l) : SortedKeys (kvInsert k v l) :=
  sortedKeys_kvInsort (sortedKeys_kvDelete hs) (kvGet_delete_self k l)

/-! Preservation of the consistency invariant. -/

theorem agrees_refl (u : User) : agrees u u :=
  ⟨rfl, rfl, rfl, rfl⟩

theorem storeInv_empty : StoreInv Store.empty := by
  refine ⟨?_, ?_, ?_, ?_, ?_, ?_, ?_, ?_, ?_, ?_⟩ <;>
    simp [Store.empty, SortedKeys]

theorem storeInv_createUser {db : Store} {user : User} {db' : Store}
    (hinv : StoreInv db) (h : createUser db user = .ok db') : StoreInv db' := by
  unfold createUser at h
  split_ifs at h with h1 h2 h3
  injection h with h
  subst h
  have hl : kvGet user.login db.byLogin = none :=
    Option.not_isSome_iff_eq_none.mp h1
  have hs : kvGet user.sessionId db.bySession = none :=
    Option.not_isSome_iff_eq_none.mp h2
  have hc : ∀ c, user.stripeCustomerId = some c → kvGet c db.byCustomer = none := by
    intro c hcu
    unfold customerTaken at h3
    rw [hcu] at h3
    exact Option.not_isSome_iff_eq_none.mp h3
  rcases hcu : user.stripeCustomerId with _ | c0
  all_goals dsimp only
  -- case stripeCustomerId = none
  · refine ⟨?_, ?_, ?_, ?_, ?_, ?_, ?_, ?_, ?_, ?_⟩
    · exact sortedKeys_kvInsert hinv.sortedLogin
    · exact sortedKeys_kvInsert hinv.sortedSession
    · exact hinv.sortedCustomer
    · intro p hp
      rcases mem_kvInsert.mp hp with rfl | ⟨hp', _⟩
      · rfl
      · exact hinv.loginKey p hp'
    · intro p hp
      rcases mem_kvInsert.mp hp with rfl | ⟨hp', _⟩
      · rfl
      · exact hinv.sessionKey p hp'
    · intro p hp
      exact hinv.customerKey p hp
    · intro p hp
      rcases mem_kvInsert.mp hp with rfl | ⟨hp', _⟩
      · exact kvGet_insert_self user.login user db.byLogin
      · have hst := hinv.sessionStored p hp'
        have hne : p.2.login ≠ user.login := by
          intro he
          rw [he, hl] at hst
          exact Option.noConfusion hst
        rw [kvGet_insert_ne hne]
        exact hst
    · intro p hp
      obtain ⟨u, hu, hag⟩ := hinv.customerStored p hp
      have hne : p.2.login ≠ user.login := by
        intro he
        rw [he, hl] at hu
        exact Option.noConfusion hu
      exact ⟨u, by rw [kvGet_insert_ne hne]; exact hu, hag⟩
    · intro p hp
      rcases mem_kvInsert.mp hp with rfl | ⟨hp', _⟩
      · exact kvGet_insert_self user.sessionId user db.bySession
      · have hsc := hinv.sessionComplete p hp'
        have hne : p.2.sessionId ≠ user.sessionId := by
          intro he
          rw [he, hs] at hsc
          exact Option.noConfusion hsc
        rw [kvGet_insert_ne hne]
        exact hsc
    · intro p hp c hpc
      rcases mem_kvInsert.mp hp with rfl | ⟨hp', _⟩
      · rw [hcu] at hpc
        exact Option.noConfusion hpc
      · exact hinv.customerComplete p hp' c hpc
  -- case stripeCustomerId = some c0
  · refine ⟨?_, ?_, ?_, ?_, ?_, ?_, ?_, ?_, ?_, ?_⟩
    · exact sortedKeys_kvInsert hinv.sortedLogin
    · exact sortedKeys_kvInsert hinv.sortedSession
    · exact sortedKeys_kvInsert hinv.sortedCustomer
    · intro p hp
      rcases mem_kvInsert.mp hp with rfl | ⟨hp', _⟩
      · rfl
      · exact hinv.loginKey p hp'
    · intro p hp
      rcases mem_kvInsert.mp hp with rfl | ⟨hp', _⟩
      · rfl
      · exact hinv.sessionKey p hp'
    · intro p hp
      rcases mem_kvInsert.mp hp with rfl | ⟨hp', _⟩
      · exact hcu
      · exact hinv.customerKey p hp'
    · intro p hp
      rcases mem_kvInsert.mp hp with rfl | ⟨hp', _⟩
      · exact kvGet_insert_self user.login user db.byLogin
      · have hst := hinv.sessionStored p hp'
        have hne : p.2.login ≠ user.login := by
          intro he
          rw [he, hl] at hst
          exact Option.noConfusion hst
        rw [kvGet_insert_ne hne]
        exact hst
    · intro p hp
      rcases mem_kvInsert.mp hp with rfl | ⟨hp', _⟩
      · exact ⟨user, kvGet_insert_self user.login user db.byLogin, agrees_refl user⟩
      · obtain ⟨u, hu, hag⟩ := hinv.customerStored p hp'
        have hne : p.2.login ≠ user.login := by
          intro he
          rw [he, hl] at hu
          exact Option.noConfusion hu
        exact ⟨u, by rw [kvGet_insert_ne hne]; exact hu, hag⟩
    · intro p hp
      rcases mem_kvInsert.mp hp with rfl | ⟨hp', _⟩
      · exact kvGet_insert_self user.sessionId user db.bySession
      · have hsc := hinv.sessionComplete p hp'
        have hne : p.2.sessionId ≠ user.sessionId := by
          intro he
          rw [he, hs] at hsc
          exact Option.noConfusion hsc
        rw [kvGet_insert_ne hne]
        exact hsc
    · intro p hp c hpc
      rcases mem_kvInsert.mp hp with rfl | ⟨hp', _⟩
      · rw [hcu] at hpc
        have hcc : c = c0 := (Option.some.inj hpc).symm
        subst hcc
        exact ⟨user, kvGet_insert_self c user db.byCustomer, agrees_refl user⟩
      · obtain ⟨v, hv, hag⟩ := hinv.customerComplete p hp' c hpc
        have hne : c ≠ c0 := by
          intro he
          rw [he, hc c0 hcu] at hv
          exact Option.noConfusion hv
        exact ⟨v, by rw [kvGet_insert_ne hne]; exact hv, hag⟩

theorem customerFree_elim {db : Store} {old newUser : User} {c : String}
    (hcf : customerFree db old newUser) (h : newUser.stripeCustomerId = some c) :
    kvGet c db.byCustomer = none ∨ old.stripeCustomerId = some c := by
  unfold customerFree at hcf
  rw [h] at hcf
  exact hcf

theorem sortedKeys_custUpdate {old newUser : User} {C : Kv}
    (h : SortedKeys C) : SortedKeys (custUpdate old newUser C) := by
  unfold custUpdate
  rcases old.stripeCustomerId with _ | oc <;>
    rcases newUser.stripeCustomerId with _ | nc <;>
      dsimp only
  · exact h
  · exact sortedKeys_kvInsert h
  · exact sortedKeys_kvDelete h
  · exact sortedKeys_kvInsert (sortedKeys_kvDelete h)

theorem kvGet_custUpdate_new {old newUser : User} {C : Kv} {c : String}
    (h : newUser.stripeCustomerId = some c) :
    kvGet c (custUpdate old newUser C) = some newUser := by
  unfold custUpdate
  rw [h]
  rcases old.stripeCustomerId with _ | oc <;> dsimp only <;>
    exact kvGet_insert_self c newUser _

theorem kvGet_custUpdate_other {old newUser : User} {C : Kv} {c : String}
    (hno : ∀ c0, old.stripeCustomerId = some c0 → c ≠ c0)
    (hnn : ∀ c1, newUser.stripeCustomerId = some c1 → c ≠ c1) :
    kvGet c (custUpdate old newUser C) = kvGet c C := by
  unfold custUpdate
  rcases hocu : old.stripeCustomerId with _ | oc <;>
    rcases hncu : newUser.stripeCustomerId with _ | nc <;>
      dsimp only
  · exact kvGet_insert_ne (hnn nc hncu) newUser C
  · exact kvGet_delete_ne (hno oc hocu) C
  · rw [kvGet_insert_ne (hnn nc hncu), kvGet_delete_ne (hno oc hocu)]

theorem mem_custUpdate {old newUser : User} {C : Kv} {p : String × User}
    (h : p ∈ custUpdate old newUser C) :
    (newUser.stripeCustomerId = some p.1 ∧ p.2 = newUser) ∨
      (p ∈ C ∧ ∀ c0, old.stripeCustomerId = some c0 → p.1 ≠ c0) := by
  unfold custUpdate at h
  rcases hocu : old.stripeCustomerId with _ | oc <;>
    rcases hncu : newUser.stripeCustomerId with _ | nc <;>
      rw [hocu, hncu] at h <;> dsimp only at h
  · refine Or.inr ⟨h, ?_⟩
    intro c0 hc0
    exact Option.noConfusion hc0
  · rcases mem_kvInsert.mp h with rfl | ⟨hmem, _⟩
    · exact Or.inl ⟨rfl, rfl⟩
    · refine Or.inr ⟨hmem, ?_⟩
      intro c0 hc0
      exact Option.noConfusion hc0
  · refine Or.inr ⟨mem_of_mem_kvDelete h, ?_⟩
    intro c0 hc0
    rw [← Option.some.inj hc0]
    exact fst_ne_of_mem_kvDelete h
  · rcases mem_kvInsert.mp h with rfl | ⟨hmem, _⟩
    · exact Or.inl ⟨rfl, rfl⟩
    · refine Or.inr ⟨mem_of_mem_kvDelete hmem, ?_⟩
      intro c0 hc0
      rw [← Option.some.inj hc0]
      exact fst_ne_of_mem_kvDelete hmem

theorem storeInv_updateUser {db : Store} {old newUser : User} {db' : Store}
    (hinv : StoreInv db) (hold : kvGet newUser.login db.byLogin = some old)
    (hsf : sessionFree db old newUser) (hcf : customerFree db old newUser)
    (h : updateUser db newUser = .ok db') : StoreInv db' := by
  unfold updateUser at h
  rw [hold] at h
  injection h with h
  subst h
  have hmemL : (newUser.login, old) ∈ db.byLogin := mem_of_kvGet hold
  have holdlogin : old.login = newUser.login := hinv.loginKey _ hmemL
  have hOS : kvGet old.sessionId db.bySession = some old :=
    hinv.sessionComplete _ hmemL
  have hOC : ∀ c0, old.stripeCustomerId = some c0 →
      ∃ v, kvGet c0 db.byCustomer = some v ∧ agrees v old :=
    fun c0 hc0 => hinv.customerComplete _ hmemL c0 hc0
  refine ⟨?_, ?_, ?_, ?_, ?_, ?_, ?_, ?_, ?_, ?_⟩
  · exact sortedKeys_kvInsert hinv.sortedLogin
  · exact sortedKeys_kvInsert (sortedKeys_kvDelete hinv.sortedSession)
  · exact sortedKeys_custUpdate hinv.sortedCustomer
  · intro p hp
    rcases mem_kvInsert.mp hp with rfl | ⟨hp', _⟩
    · rfl
    · exact hinv.loginKey p hp'
  · intro p hp
    rcases mem_kvInsert.mp hp with rfl | ⟨hp', _⟩
    · rfl
    · exact hinv.sessionKey p (mem_of_mem_kvDelete hp')
  · intro p hp
    rcases mem_custUpdate hp with ⟨hnc, hp2⟩ | ⟨hp', _⟩
    · rw [hp2]
      exact hnc
    · exact hinv.customerKey p hp'
  · intro p hp
    rcases mem_kvInsert.mp hp with rfl | ⟨hp', _⟩
    · exact kvGet_insert_self newUser.login newUser db.byLogin
    · have hmemS : p ∈ db.bySession := mem_of_mem_kvDelete hp'
      have hne_os : p.1 ≠ old.sessionId := fst_ne_of_mem_kvDelete hp'
      have hst := hinv.sessionStored p hmemS
      have hlne : p.2.login ≠ newUser.login := by
        intro he
        rw [he, hold] at hst
        have hpo : old = p.2 := Option.some.inj hst
        apply hne_os
        rw [← hinv.sessionKey p hmemS, ← hpo]
      rw [kvGet_insert_ne hlne]
      exact hst
  · intro p hp
    rcases mem_custUpdate hp with ⟨hnc, hp2⟩ | ⟨hp', hno⟩
    · refine ⟨newUser, ?_, ?_⟩
      · rw [hp2]
        exact kvGet_insert_self newUser.login newUser db.byLogin
      · rw [hp2]
        exact agrees_refl newUser
    · obtain ⟨u, hu, hag⟩ := hinv.customerStored p hp'
      have hlne : p.2.login ≠ newUser.login := by
        intro he
        rw [he, hold] at hu
        have huo : old = u := Option.some.inj hu
        have hpcust : (p.2).stripeCustomerId = some p.1 := hinv.customerKey p hp'
        have hocust : old.stripeCustomerId = some p.1 := by
          rw [huo, ← hag.2.1]
          exact hpcust
        exact hno p.1 hocust rfl
      exact ⟨u, by rw [kvGet_insert_ne hlne]; exact hu, hag⟩
  · intro p hp
    rcases mem_kvInsert.mp hp with rfl | ⟨hp', hneL⟩
    · exact kvGet_insert_self newUser.sessionId newUser _
    · have hsc := hinv.sessionComplete p hp'
      have hp2old : p.2 ≠ old := by
        intro he
        apply hneL
        rw [← hinv.loginKey p hp', he]
        exact holdlogin
      have hne_os : p.2.sessionId ≠ old.sessionId := by
        intro he
        rw [he, hOS] at hsc
        exact hp2old (Option.some.inj hsc).symm
      have hne_ns : p.2.sessionId ≠ newUser.sessionId := by
        rcases hsf with hfree | heq
        · intro he
          rw [he, hfree] at hsc
          exact Option.noConfusion hsc
        · rw [heq]
          exact hne_os
      rw [kvGet_insert_ne hne_ns, kvGet_delete_ne hne_os]
      exact hsc
  · intro p hp c hpc
    rcases mem_kvInsert.mp hp with rfl | ⟨hp', hneL⟩
    · exact ⟨newUser, kvGet_custUpdate_new hpc, agrees_refl newUser⟩
    · obtain ⟨v, hv, hag⟩ := hinv.customerComplete p hp' c hpc
      have hlne : p.2.login ≠ newUser.login := by
        intro he
        apply hneL
        rw [← hinv.loginKey p hp']
        exact he
      have hno : ∀ c0, old.stripeCustomerId = some c0 → c ≠ c0 := by
        intro c0 hoc0 hcc0
        subst hcc0
        obtain ⟨w, hw, hagw⟩ := hOC c hoc0
        have hvw : v = w := by
          rw [hv] at hw
          exact Option.some.inj hw
        apply hlne
        rw [← hag.1, hvw, hagw.1]
        exact holdlogin
      have hnn : ∀ c1, newUser.stripeCustomerId = some c1 → c ≠ c1 := by
        intro c1 hnc1 hcc1
        subst hcc1
        rcases customerFree_elim hcf hnc1 with hnone | hoc
        · rw [hnone] at hv
          exact Option.noConfusion hv
        · exact hno c hoc rfl
      refine ⟨v, ?_, hag⟩
      rw [kvGet_custUpdate_other hno hnn]
      exact hv

theorem storeInv_updateUserSession {db : Store} {user : User} {s : String}
    {db' : Store} (hinv : StoreInv db)
    (hfree : kvGet s db.bySession = none ∨ s = user.sessionId)
    (h : updateUserSession db user s = .ok db') : StoreInv db' := by
  unfold updateUserSession at h
  cases hses : kvGet user.sessionId db.bySession with
  | none =>
    rw [hses] at h
    exact Except.noConfusion h
  | some u =>
    rw [hses] at h
    dsimp only at h
    by_cases hu : u = user
    · rw [if_pos hu] at h
      subst hu
      injection h with h
      subst h
      have hmemS : (u.sessionId, u) ∈ db.bySession := mem_of_kvGet hses
      have hstored : kvGet u.login db.byLogin = some u :=
        hinv.sessionStored _ hmemS
      have hmemL : (u.login, u) ∈ db.byLogin := mem_of_kvGet hstored
      refine ⟨?_, ?_, ?_, ?_, ?_, ?_, ?_, ?_, ?_, ?_⟩
      · exact sortedKeys_kvInsert hinv.sortedLogin
      · exact sortedKeys_kvInsert (sortedKeys_kvDelete hinv.sortedSession)
      · exact hinv.sortedCustomer
      · intro p hp
        rcases mem_kvInsert.mp hp with rfl | ⟨hp', _⟩
        · rfl
        · exact hinv.loginKey p hp'
      · intro p hp
        rcases mem_kvInsert.mp hp with rfl | ⟨hp', _⟩
        · rfl
        · exact hinv.sessionKey p (mem_of_mem_kvDelete hp')
      · intro p hp
        exact hinv.customerKey p hp
      · intro p hp
        rcases mem_kvInsert.mp hp with rfl | ⟨hp', _⟩
        · exact kvGet_insert_self u.login { u with sessionId := s } db.byLogin
        · have hmemS' : p ∈ db.bySession := mem_of_mem_kvDelete hp'
          have hne_os : p.1 ≠ u.sessionId := fst_ne_of_mem_kvDelete hp'
          have hst := hinv.sessionStored p hmemS'
          have hlne : p.2.login ≠ u.login := by
            intro he
            rw [he, hstored] at hst
            have hup : u = p.2 := Option.some.inj hst
            apply hne_os
            rw [← hinv.sessionKey p hmemS', ← hup]
          rw [kvGet_insert_ne hlne]
          exact hst
      · intro p hp
        obtain ⟨u', hu', hag⟩ := hinv.customerStored p hp
        by_cases hpl : p.2.login = u.login
        · rw [hpl, hstored] at hu'
          have huu : u = u' := Option.some.inj hu'
          refine ⟨{ u with sessionId := s }, ?_, ?_⟩
          · rw [hpl]
            exact kvGet_insert_self u.login { u with sessionId := s } db.byLogin
          · rw [← huu] at hag
            exact hag
        · exact ⟨u', by rw [kvGet_insert_ne hpl]; exact hu', hag⟩
      · intro p hp
        rcases mem_kvInsert.mp hp with rfl | ⟨hp', hneL⟩
        · exact kvGet_insert_self s { u with sessionId := s } _
        · have hsc := hinv.sessionComplete p hp'
          have hp2u : p.2 ≠ u := by
            intro he
            apply hneL
            rw [← hinv.loginKey p hp', he]
          have hne_os : p.2.sessionId ≠ u.sessionId := by
            intro he
            rw [he, hses] at hsc
            exact hp2u (Option.some.inj hsc).symm
          have hne_s : p.2.sessionId ≠ s := by
            rcases hfree with hnone | heq
            · intro he
              rw [he, hnone] at hsc
              exact Option.noConfusion hsc
            · rw [heq]
              exact hne_os
          rw [kvGet_insert_ne hne_s, kvGet_delete_ne hne_os]
          exact hsc
      · intro p hp c hpc
        rcases mem_kvInsert.mp hp with rfl | ⟨hp', _⟩
        · obtain ⟨v, hv, hag⟩ := hinv.customerComplete _ hmemL c hpc
          exact ⟨v, hv, hag⟩
        · exact hinv.customerComplete p hp' c hpc
    · rw [if_neg hu] at h
      exact Except.noConfusion h

/-- Every collision-free committed state satisfies the full consistency
invariant. -/
theorem safeReachable_storeInv {db : Store} (h : SafeReachable db) :
    StoreInv db := by
  induction h with
  | empty => exact storeInv_empty
  | create _ hc ih => exact storeInv_createUser ih hc
  | update _ hold hsf hcf hu ih => exact storeInv_updateUser ih hold hsf hcf hu
  | rotate _ hfree hrot ih => exact storeInv_updateUserSession ih hfree hrot

/-- The part of the invariant that holds in every committed state, collisions
included: namespaces stay sorted and primary entries are keyed by login. -/
structure StoreBasic (db : Store) : Prop where
  sortedLogin : SortedKeys db.byLogin
  sortedSession : SortedKeys db.bySession
  sortedCustomer : SortedKeys db.byCustomer
  loginKey : ∀ p ∈ db.byLogin, (p.2).login = p.1

theorem storeBasic_step {db : Store} {op : Op} {db' : Store}
    (hb : StoreBasic db) (h : applyOp db op = .ok db') : StoreBasic db' := by
  cases op with
  | create user =>
    simp only [applyOp] at h
    unfold createUser at h
    split_ifs at h with h1 h2 h3
    injection h with h
    subst h
    refine ⟨sortedKeys_kvInsert hb.sortedLogin,
      sortedKeys_kvInsert hb.sortedSession, ?_, ?_⟩
    · rcases user.stripeCustomerId with _ | c <;> dsimp only
      · exact hb.sortedCustomer
      · exact sortedKeys_kvInsert hb.sortedCustomer
    · intro p hp
      rcases mem_kvInsert.mp hp with rfl | ⟨hp', _⟩
      · rfl
      · exact hb.loginKey p hp'
  | update newUser =>
    simp only [applyOp] at h
    unfold updateUser at h
    cases hold : kvGet newUser.login db.byLogin with
    | none =>
      rw [hold] at h
      exact Except.noConfusion h
    | some old =>
      rw [hold] at h
      injection h with h
      subst h
      refine ⟨sortedKeys_kvInsert hb.sortedLogin,
        sortedKeys_kvInsert (sortedKeys_kvDelete hb.sortedSession),
        sortedKeys_custUpdate hb.sortedCustomer, ?_⟩
      intro p hp
      rcases mem_kvInsert.mp hp with rfl | ⟨hp', _⟩
      · rfl
      · exact hb.loginKey p hp'
  | rotate user s =>
    simp only [applyOp] at h
    unfold updateUserSession at h
    cases hses : kvGet user.sessionId db.bySession with
    | none =>
      rw [hses] at h
      exact Except.noConfusion h
    | some u =>
      rw [hses] at h
      dsimp only at h
      by_cases hu : u = user
      · rw [if_pos hu] at h
        injection h with h
        subst h
        refine ⟨sortedKeys_kvInsert hb.sortedLogin,
          sortedKeys_kvInsert (sortedKeys_kvDelete hb.sortedSession),
          hb.sortedCustomer, ?_⟩
        intro p hp
        rcases mem_kvInsert.mp hp with rfl | ⟨hp', _⟩
        · rfl
        · exact hb.loginKey p hp'
      · rw [if_neg hu] at h
        exact Except.noConfusion h

/-- Every committed state satisfies the basic invariant. -/
theorem reachable_storeBasic {db : Store} (h : Reachable db) : StoreBasic db := by
  induction h with
  | empty =>
    refine ⟨List.Pairwise.nil, List.Pairwise.nil, List.Pairwise.nil, ?_⟩
    intro p hp
    simp [Store.empty] at hp
  | step _ hstep ih => exact storeBasic_step ih hstep

/-! Facts about the paginated listing. -/

theorem mem_keepAfter {q : String × User} {c : String} {l : Kv}
    (h : q ∈ keepAfter c l) : q ∈ l ∧ keyLt c q.1 := by
  induction l with
  | nil => simp [keepAfter] at h
  | cons p rest ih =>
    by_cases hc : keyLt c p.1
    · rw [keepAfter, if_pos hc] at h
      rcases List.mem_cons.mp h with rfl | h
      · exact ⟨List.mem_cons_self q rest, hc⟩
      · obtain ⟨hm, hlt⟩ := ih h
        exact ⟨List.mem_cons_of_mem p hm, hlt⟩
    · rw [keepAfter, if_neg hc] at h
      obtain ⟨hm, hlt⟩ := ih h
      exact ⟨List.mem_cons_of_mem p hm, hlt⟩

theorem sortedKeys_keepAfter {c : String} {l : Kv} (hs : SortedKeys l) :
    SortedKeys (keepAfter c l) := by
  induction l with
  | nil => exact hs
  | cons p rest ih =>
    rw [sortedKeys_cons] at hs
    by_cases hc : keyLt c p.1
    · rw [keepAfter, if_pos hc, sortedKeys_cons]
      exact ⟨fun q hq => hs.1 q (mem_keepAfter hq).1, ih hs.2⟩
    · rw [keepAfter, if_neg hc]
      exact ih hs.2

theorem keepAfter_all {c : String} {l : Kv} (h : ∀ q ∈ l, keyLt c q.1) :
    keepAfter c l = l := by
  induction l with
  | nil => rfl
  | cons p rest ih =>
    rw [keepAfter, if_pos (h p (List.mem_cons_self p rest))]
    rw [ih (fun q hq => h q (List.mem_cons_of_mem p hq))]

theorem keepAfter_of_lt {c c' : String} (hcc : keyLt c c') (l : Kv) :
    keepAfter c' (keepAfter c l) = keepAfter c' l := by
  induction l with
  | nil => rfl
  | cons p rest ih =>
    by_cases hc : keyLt c p.1
    · rw [keepAfter, if_pos hc]
      by_cases hc' : keyLt c' p.1
      · rw [keepAfter, if_pos hc', keepAfter, if_pos hc', ih]
      · rw [keepAfter, if_neg hc', keepAfter, if_neg hc', ih]
    · have hc' : ¬ keyLt c' p.1 := fun hl => hc (keyLt_trans hcc hl)
      rw [keepAfter, if_neg hc, ih, keepAfter, if_neg hc']

theorem getLast_cons_of_getLast {a p : String × User} {l : Kv}
    (h : l.getLast? = some p) : (a :: l).getLast? = some p := by
  cases l with
  | nil => simp at h
  | cons b t =>
    rw [List.getLast?_cons_cons]
    exact h

/-- In a sorted namespace, the last entry of the first `n` entries is a cursor
from which the scan resumes with exactly the remaining entries. -/
theorem keepAfter_getLast_take {l : Kv} (hs : SortedKeys l) :
    ∀ n, 0 < n → n < l.length →
      ∃ p, (l.take n).getLast? = some p ∧ p ∈ l.take n ∧
        keepAfter p.1 l = l.drop n := by
  induction l with
  | nil =>
    intro n _ hlen
    simp at hlen
  | cons a t ih =>
    intro n hpos hlen
    rw [sortedKeys_cons] at hs
    match n with
    | 1 =>
      refine ⟨a, ?_, ?_, ?_⟩
      · rw [List.take_succ_cons, List.take_zero]
        rfl
      · rw [List.take_succ_cons, List.take_zero]
        exact List.mem_singleton_self a
      · rw [keepAfter, if_neg (keyLt_irrefl a.1), keepAfter_all hs.1]
        rfl
    | m + 2 =>
      have hlen' : m + 1 < t.length := by
        rw [List.length_cons] at hlen
        omega
      obtain ⟨p, hlast, hmem, hkeep⟩ := ih hs.2 (m + 1) (by omega) hlen'
      have hmt : p ∈ t := List.take_subset (m + 1) t hmem
      have hap : keyLt a.1 p.1 := hs.1 p hmt
      refine ⟨p, ?_, ?_, ?_⟩
      · rw [List.take_succ_cons]
        exact getLast_cons_of_getLast hlast
      · rw [List.take_succ_cons]
        exact List.mem_cons_of_mem a hmem
      · rw [keepAfter, if_neg (keyLt_asymm hap), hkeep]
        rfl

theorem sortedKeys_afterCursor {cursor : Option String} {l : Kv}
    (hs : SortedKeys l) : SortedKeys (afterCursor cursor l) := by
  cases cursor with
  | none => exact hs
  | some c => exact sortedKeys_keepAfter hs

theorem listUsers_done {db : Store} {cursor : Option String} {limit : Nat}
    (h : (afterCursor cursor db.byLogin).length ≤ limit) :
    listUsers db cursor limit =
      ((afterCursor cursor db.byLogin).map Prod.snd, none) := by
  unfold listUsers
  dsimp only
  rw [if_pos h, List.take_of_length_le h]

theorem listUsers_more {db : Store} {cursor : Option String} {limit : Nat}
    (hs : SortedKeys db.byLogin)
    (h : limit < (afterCursor cursor db.byLogin).length) (hpos : 0 < limit) :
    ∃ p : String × User, listUsers db cursor limit =
        (((afterCursor cursor db.byLogin).take limit).map Prod.snd, some p.1) ∧
      afterCursor (some p.1) db.byLogin =
        (afterCursor cursor db.byLogin).drop limit := by
  obtain ⟨p, hlast, hmem, hkeep⟩ :=
    keepAfter_getLast_take (sortedKeys_afterCursor hs) limit hpos h
  refine ⟨p, ?_, ?_⟩
  · unfold listUsers
    dsimp only
    rw [if_neg (not_le.mpr h), hlast]
    rfl
  · show keepAfter p.1 db.byLogin = _
    cases cursor with
    | none => exact hkeep
    | some c =>
      have hcp : keyLt c p.1 :=
        (mem_keepAfter (List.take_subset limit _ hmem)).2
      rw [← keepAfter_of_lt hcp db.byLogin]
      exact hkeep

theorem collectValuesAux_eq {db : Store} (hs : SortedKeys db.byLogin)
    {limit : Nat} (hpos : 0 < limit) :
    ∀ fuel cursor, (afterCursor cursor db.byLogin).length < fuel →
      collectValuesAux db limit fuel cursor =
        (afterCursor cursor db.byLogin).map Prod.snd := by
  intro fuel
  induction fuel with
  | zero =>
    intro cursor h
    exact absurd h (Nat.not_lt_zero _)
  | succ fuel ih =>
    intro cursor hfuel
    by_cases hle : (afterCursor cursor db.byLogin).length ≤ limit
    · rw [collectValuesAux, listUsers_done hle]
    · have hlt : limit < (afterCursor cursor db.byLogin).length := not_le.mp hle
      obtain ⟨p, hlist, hafter⟩ := listUsers_more hs hlt hpos
      rw [collectValuesAux, hlist]
      dsimp only
      have hlen : (afterCursor (some p.1) db.byLogin).length < fuel := by
        rw [hafter, List.length_drop]
        omega
      rw [ih (some p.1) hlen, hafter, ← List.map_append, List.take_append_drop]

/-- With a positive page size, the full cursor-following scan returns exactly
the primary records, in storage key order. -/
theorem collectValues_eq {db : Store} (hs : SortedKeys db.byLogin)
    {limit : Nat} (hpos : 0 < limit) :
    collectValues db limit = db.byLogin.map Prod.snd := by
  unfold collectValues
  exact collectValuesAux_eq hs hpos (db.byLogin.length + 1) none
    (Nat.lt_succ_self _)

/-! Consequences of the invariant for the point lookups. -/

theorem storeInv_session_facts {db : Store} (hinv : StoreInv db) (S : String) :
    ((∃ u : User, getUser db u.login = some u ∧ u.sessionId = S) ↔
      (getUserBySession db S).isSome = true) ∧
    (∀ u : User, getUserBySession db S = some u →
      getUser db u.login = some u ∧ u.sessionId = S) ∧
    (∀ u v : User, getUser db u.login = some u → getUser db v.login = some v →
      u.sessionId = S → v.sessionId = S → u = v) := by
  refine ⟨⟨?_, ?_⟩, ?_, ?_⟩
  · rintro ⟨u, hu, hus⟩
    have hmem : (u.login, u) ∈ db.byLogin := mem_of_kvGet hu
    have hc := hinv.sessionComplete _ hmem
    rw [hus] at hc
    show (kvGet S db.bySession).isSome = true
    rw [hc]
    rfl
  · intro hsome
    obtain ⟨u, hu⟩ := Option.isSome_iff_exists.mp hsome
    have hmem : (S, u) ∈ db.bySession := mem_of_kvGet hu
    exact ⟨u, hinv.sessionStored _ hmem, hinv.sessionKey _ hmem⟩
  · intro u hu
    have hmem : (S, u) ∈ db.bySession := mem_of_kvGet hu
    exact ⟨hinv.sessionStored _ hmem, hinv.sessionKey _ hmem⟩
  · intro u v hu hv huS hvS
    have hcu := hinv.sessionComplete _ (mem_of_kvGet hu)
    have hcv := hinv.sessionComplete _ (mem_of_kvGet hv)
    rw [huS] at hcu
    rw [hvS] at hcv
    rw [hcu] at hcv
    exact Option.some.inj hcv

theorem storeInv_customer_facts {db : Store} (hinv : StoreInv db) (C : String) :
    ((∃ u : User, getUser db u.login = some u ∧ u.stripeCustomerId = some C) ↔
      (getUserByStripeCustomer db C).isSome = true) ∧
    (∀ v : User, getUserByStripeCustomer db C = some v →
      ∃ u : User, getUser db u.login = some u ∧ u.stripeCustomerId = some C ∧
        agrees v u) ∧
    (∀ u : User, getUser db u.login = some u → u.stripeCustomerId = some C →
      ∃ v : User, getUserByStripeCustomer db C = some v ∧ agrees v u) ∧
    (∀ u v : User, getUser db u.login = some u → getUser db v.login = some v →
      u.stripeCustomerId = some C → v.stripeCustomerId = some C → u = v) := by
  have huniq : ∀ u v : User, getUser db u.login = some u →
      getUser db v.login = some v → u.stripeCustomerId = some C →
      v.stripeCustomerId = some C → u = v := by
    intro u v hu hv huC hvC
    obtain ⟨w1, hw1, hagw1⟩ := hinv.customerComplete _ (mem_of_kvGet hu) C huC
    obtain ⟨w2, hw2, hagw2⟩ := hinv.customerComplete _ (mem_of_kvGet hv) C hvC
    rw [hw1] at hw2
    have hw : w1 = w2 := Option.some.inj hw2
    have hlogin : u.login = v.login := by
      rw [← hagw1.1, hw, hagw2.1]
    rw [hlogin] at hu
    rw [hu] at hv
    exact Option.some.inj hv
  refine ⟨⟨?_, ?_⟩, ?_, ?_, huniq⟩
  · rintro ⟨u, hu, huC⟩
    obtain ⟨v, hv, _⟩ := hinv.customerComplete _ (mem_of_kvGet hu) C huC
    show (kvGet C db.byCustomer).isSome = true
    rw [hv]
    rfl
  · intro hsome
    obtain ⟨v, hv⟩ := Option.isSome_iff_exists.mp hsome
    have hmem : (C, v) ∈ db.byCustomer := mem_of_kvGet hv
    obtain ⟨u, hu, hag⟩ := hinv.customerStored _ hmem
    refine ⟨u, ?_, ?_⟩
    · rw [hag.1] at hu
      exact hu
    · rw [← hag.2.1]
      exact hinv.customerKey _ hmem
  · intro v hv
    have hmem : (C, v) ∈ db.byCustomer := mem_of_kvGet hv
    obtain ⟨u, hu, hag⟩ := hinv.customerStored _ hmem
    refine ⟨u, ?_, ?_, hag⟩
    · rw [hag.1] at hu
      exact hu
    · rw [← hag.2.1]
      exact hinv.customerKey _ hmem
  · intro u hu huC
    obtain ⟨v, hv, hag⟩ := hinv.customerComplete _ (mem_of_kvGet hu) C huC
    exact ⟨v, hv, hag⟩

/-! Claim theorems. -/

/-- C2: for any user with non-empty login and sessionId, on a store where none
of the user's keys exist, `create(user)` succeeds, afterwards
`getUser(user.login)`, `getUserBySession(user.sessionId)` and
`getUserByStripeCustomer(user.stripeCustomerId)` each return that identical
record, and a second create with the same login fails with AlreadyExists. -/
theorem claim2_create (db : Store) (user : User)
    (hlogin : user.login ≠ "") (hsession : user.sessionId ≠ "")
    (h1 : getUser db user.login = none)
    (h2 : getUserBySession db user.sessionId = none)
    (h3 : ∀ c, user.stripeCustomerId = some c →
      getUserByStripeCustomer db c = none) :
    (createUser db user).isOk = true ∧
    getUser (stepStore db (Op.create user)) user.login = some user ∧
    getUserBySession (stepStore db (Op.create user)) user.sessionId =
      some user ∧
    (∀ c, user.stripeCustomerId = some c →
      getUserByStripeCustomer (stepStore db (Op.create user)) c = some user) ∧
    (∀ u2 : User, u2.login = user.login →
      createUser (stepStore db (Op.create user)) u2 =
        .error DbError.alreadyExists) := by
  have h1' : kvGet user.login db.byLogin = none := h1
  have h2' : kvGet user.sessionId db.bySession = none := h2
  have h3' : ∀ c, user.stripeCustomerId = some c →
      kvGet c db.byCustomer = none := h3
  have hct : customerTaken db user = false := by
    unfold customerTaken
    cases hcu : user.stripeCustomerId with
    | none => rfl
    | some c =>
      dsimp only
      rw [h3' c hcu]
      rfl
  have hc1 : ¬ ((kvGet user.login db.byLogin).isSome = true) := by
    rw [h1']
    simp
  have hc2 : ¬ ((kvGet user.sessionId db.bySession).isSome = true) := by
    rw [h2']
    simp
  have hc3 : ¬ (customerTaken db user = true) := by
    rw [hct]
    simp
  have hcreate : createUser db user = Except.ok
      { byLogin := kvInsert user.login user db.byLogin
        bySession := kvInsert user.sessionId user db.bySession
        byCustomer :=
          match user.stripeCustomerId with
          | some c => kvInsert c user db.byCustomer
          | none => db.byCustomer } := by
    unfold createUser
    rw [if_neg hc1, if_neg hc2, if_neg hc3]
  have hstep : stepStore db (Op.create user) =
      { byLogin := kvInsert user.login user db.byLogin
        bySession := kvInsert user.sessionId user db.bySession
        byCustomer :=
          match user.stripeCustomerId with
          | some c => kvInsert c user db.byCustomer
          | none => db.byCustomer } := by
    unfold stepStore
    simp only [applyOp]
    rw [hcreate]
  refine ⟨by rw [hcreate]; rfl, ?_, ?_, ?_, ?_⟩
  · rw [hstep]
    exact kvGet_insert_self user.login user db.byLogin
  · rw [hstep]
    exact kvGet_insert_self user.sessionId user db.bySession
  · intro c hcu
    rw [hstep]
    unfold getUserByStripeCustomer
    dsimp only
    rw [hcu]
    exact kvGet_insert_self c user db.byCustomer
  · intro u2 hlog
    rw [hstep]
    unfold createUser
    rw [hlog]
    dsimp only
    rw [kvGet_insert_self]
    rfl

/-- Concrete user for the C2 witness. -/
def w2user : User := ⟨"alice", "s1", some "c1", false, ""⟩

/-- C2 witness: the creation theorem applied on the empty store to the user
`{login := "alice", sessionId := "s1", stripeCustomerId := some "c1"}`. -/
theorem claim2_witness :
    (createUser Store.empty w2user).isOk = true ∧
    getUser (stepStore Store.empty (Op.create w2user)) w2user.login =
      some w2user ∧
    getUserBySession (stepStore Store.empty (Op.create w2user))
      w2user.sessionId = some w2user ∧
    (∀ c, w2user.stripeCustomerId = some c →
      getUserByStripeCustomer (stepStore Store.empty (Op.create w2user)) c =
        some w2user) ∧
    (∀ u2 : User, u2.login = w2user.login →
      createUser (stepStore Store.empty (Op.create w2user)) u2 =
        .error DbError.alreadyExists) :=
  claim2_create Store.empty w2user (by decide) (by decide) rfl rfl
    (fun _ _ => rfl)

/-- C3: every failing call of the three write operations leaves the committed
key-value namespace exactly as it was before the call; in particular every
lookup, `getUser` included, is unchanged. -/
theorem claim3_atomic_failure (db : Store) (op : Op) (e : DbError)
    (h : applyOp db op = .error e) :
    stepStore db op = db ∧
    (∀ l, getUser (stepStore db op) l = getUser db l) ∧
    (∀ s, getUserBySession (stepStore db op) s = getUserBySession db s) ∧
    (∀ c, getUserByStripeCustomer (stepStore db op) c =
      getUserByStripeCustomer db c) := by
  have hstep : stepStore db op = db := by
    unfold stepStore
    rw [h]
  exact ⟨hstep, fun l => by rw [hstep], fun s => by rw [hstep],
    fun c => by rw [hstep]⟩

/-- Store holding only `w2user`, used by several witnesses. -/
def oneUserDb : Store := stepStore Store.empty (Op.create w2user)

/-- C3 witness: a duplicate create fails with AlreadyExists and changes no
lookup. -/
theorem claim3_witness :
    applyOp oneUserDb (Op.create w2user) = .error DbError.alreadyExists ∧
    (stepStore oneUserDb (Op.create w2user) = oneUserDb ∧
    (∀ l, getUser (stepStore oneUserDb (Op.create w2user)) l =
      getUser oneUserDb l) ∧
    (∀ s, getUserBySession (stepStore oneUserDb (Op.create w2user)) s =
      getUserBySession oneUserDb s) ∧
    (∀ c, getUserByStripeCustomer (stepStore oneUserDb (Op.create w2user)) c =
      getUserByStripeCustomer oneUserDb c)) :=
  ⟨rfl, claim3_atomic_failure oneUserDb (Op.create w2user)
    DbError.alreadyExists rfl⟩

/-- C5: for an existing user, `update(newUser)` with the same login,
sessionId and stripeCustomerId (for example with only `isSubscribed`
changed) succeeds, and afterwards lookup by login, by session and by
customer id all return the updated record. -/
theorem claim5_update_propagation (db : Store) (newUser old : User)
    (hold : getUser db newUser.login = some old)
    (hsess : old.sessionId = newUser.sessionId)
    (hcust : old.stripeCustomerId = newUser.stripeCustomerId) :
    (updateUser db newUser).isOk = true ∧
    getUser (stepStore db (Op.update newUser)) newUser.login =
      some newUser ∧
    getUserBySession (stepStore db (Op.update newUser)) newUser.sessionId =
      some newUser ∧
    (∀ c, newUser.stripeCustomerId = some c →
      getUserByStripeCustomer (stepStore db (Op.update newUser)) c =
        some newUser) := by
  have hold' : kvGet newUser.login db.byLogin = some old := hold
  have hupd : updateUser db newUser = Except.ok
      { byLogin := kvInsert newUser.login newUser db.byLogin
        bySession :=
          kvInsert newUser.sessionId newUser
            (kvDelete old.sessionId db.bySession)
        byCustomer := custUpdate old newUser db.byCustomer } := by
    unfold updateUser
    rw [hold']
  have hstep : stepStore db (Op.update newUser) =
      { byLogin := kvInsert newUser.login newUser db.byLogin
        bySession :=
          kvInsert newUser.sessionId newUser
            (kvDelete old.sessionId db.bySession)
        byCustomer := custUpdate old newUser db.byCustomer } := by
    unfold stepStore
    simp only [applyOp]
    rw [hupd]
  refine ⟨by rw [hupd]; rfl, ?_, ?_, ?_⟩
  · rw [hstep]
    exact kvGet_insert_self newUser.login newUser db.byLogin
  · rw [hstep]
    exact kvGet_insert_self newUser.sessionId newUser
      (kvDelete old.sessionId db.bySession)
  · intro c hcu
    rw [hstep]
    exact kvGet_custUpdate_new hcu

/-- The subscribed variant of `w2user`, as in Scenario B. -/
def w5user : User := ⟨"alice", "s1", some "c1", true, ""⟩

/-- C5 witness: updating the stored "alice" to `isSubscribed := true` keeps
all three lookups pointing at the updated record. -/
theorem claim5_witness :
    getUser oneUserDb w5user.login = some w2user ∧
    ((updateUser oneUserDb w5user).isOk = true ∧
    getUser (stepStore oneUserDb (Op.update w5user)) w5user.login =
      some w5user ∧
    getUserBySession (stepStore oneUserDb (Op.update w5user))
      w5user.sessionId = some w5user ∧
    (∀ c, w5user.stripeCustomerId = some c →
      getUserByStripeCustomer (stepStore oneUserDb (Op.update w5user)) c =
        some w5user)) :=
  ⟨rfl, claim5_update_propagation oneUserDb w5user w2user rfl rfl rfl⟩

/-- C10: `create` succeeds when the user's stripeCustomerId is undefined:
only the primary and session-index records are written (the customer
namespace is untouched), and the user is afterwards reachable by login and by
session id. -/
theorem claim10_create_without_customer (db : Store) (user : User)
    (hcu : user.stripeCustomerId = none)
    (h1 : getUser db user.login = none)
    (h2 : getUserBySession db user.sessionId = none) :
    (createUser db user).isOk = true ∧
    (stepStore db (Op.create user)).byCustomer = db.byCustomer ∧
    getUser (stepStore db (Op.create user)) user.login = some user ∧
    getUserBySession (stepStore db (Op.create user)) user.sessionId =
      some user := by
  have h1' : kvGet user.login db.byLogin = none := h1
  have h2' : kvGet user.sessionId db.bySession = none := h2
  have hct : customerTaken db user = false := by
    unfold customerTaken
    rw [hcu]
  have hc1 : ¬ ((kvGet user.login db.byLogin).isSome = true) := by
    rw [h1']
    simp
  have hc2 : ¬ ((kvGet user.sessionId db.bySession).isSome = true) := by
    rw [h2']
    simp
  have hc3 : ¬ (customerTaken db user = true) := by
    rw [hct]
    simp
  have hcreate : createUser db user = Except.ok
      { byLogin := kvInsert user.login user db.byLogin
        bySession := kvInsert user.sessionId user db.bySession
        byCustomer := db.byCustomer } := by
    unfold createUser
    rw [if_neg hc1, if_neg hc2, if_neg hc3, hcu]
  have hstep : stepStore db (Op.create user) =
      { byLogin := kvInsert user.login user db.byLogin
        bySession := kvInsert user.sessionId user db.bySession
        byCustomer := db.byCustomer } := by
    unfold stepStore
    simp only [applyOp]
    rw [hcreate]
  refine ⟨by rw [hcreate]; rfl, by rw [hstep], ?_, ?_⟩
  · rw [hstep]
    exact kvGet_insert_self user.login user db.byLogin
  · rw [hstep]
    exact kvGet_insert_self user.sessionId user db.bySession

/-- A user without a Stripe customer id, as created by the account-manage
test. -/
def w10user : User := ⟨"carol", "s7", none, false, ""⟩

/-- C10 witness: creating `w10user` (no customer id) on the empty store. -/
theorem claim10_witness :
    (createUser Store.empty w10user).isOk = true ∧
    (stepStore Store.empty (Op.create w10user)).byCustomer =
      Store.empty.byCustomer ∧
    getUser (stepStore Store.empty (Op.create w10user)) w10user.login =
      some w10user ∧
    getUserBySession (stepStore Store.empty (Op.create w10user))
      w10user.sessionId = some w10user :=
  claim10_create_without_customer Store.empty w10user rfl rfl rfl

/-- User for the C4 counterexample. -/
def c4user : User := ⟨"alice", "s1", none, false, ""⟩

/-- Store holding only `c4user`. -/
def c4db : Store := stepStore Store.empty (Op.create c4user)

/-- C4 counterexample: rotating to the session id the user already holds
succeeds, yet afterwards `getUserBySession` of the old session id is NOT
absent, and the second identical rotation succeeds instead of failing — so
the claim is false when the new session id equals the old one. -/
theorem claim4_counterexample :
    (updateUserSession c4db c4user "s1").isOk = true ∧
    getUserBySession (stepStore c4db (Op.rotate c4user "s1")) "s1" =
      some c4user ∧
    (updateUserSession (stepStore c4db (Op.rotate c4user "s1"))
      c4user "s1").isOk = true :=
  ⟨rfl, rfl, rfl⟩

/-- C4 (amended: the new session id must differ from the old one): after a
successful `updateSession(user, s2)` with `s2 ≠ user.sessionId`, lookup of the
old session id is absent, lookup of `s2` returns the user with its session
field set to `s2`, and a second call presenting the already-rotated old
session fails with the stale-session error and performs no writes. -/
theorem claim4_session_rotation (db : Store) (user : User) (s2 : String)
    (hne : s2 ≠ user.sessionId) {db' : Store}
    (h : updateUserSession db user s2 = .ok db') :
    getUserBySession db' user.sessionId = none ∧
    getUserBySession db' s2 = some { user with sessionId := s2 } ∧
    updateUserSession db' user s2 = .error DbError.staleSession ∧
    stepStore db' (Op.rotate user s2) = db' := by
  unfold updateUserSession at h
  cases hses : kvGet user.sessionId db.bySession with
  | none =>
    rw [hses] at h
    exact Except.noConfusion h
  | some u =>
    rw [hses] at h
    dsimp only at h
    by_cases hu : u = user
    · rw [if_pos hu] at h
      subst hu
      injection h with h
      subst h
      have g1 : kvGet u.sessionId
          (kvInsert s2 { u with sessionId := s2 }
            (kvDelete u.sessionId db.bySession)) = none := by
        rw [kvGet_insert_ne (Ne.symm hne), kvGet_delete_self]
      have g3 : updateUserSession
          { byLogin := kvInsert u.login { u with sessionId := s2 } db.byLogin
            bySession :=
              kvInsert s2 { u with sessionId := s2 }
                (kvDelete u.sessionId db.bySession)
            byCustomer := db.byCustomer } u s2 =
          .error DbError.staleSession := by
        unfold updateUserSession
        dsimp only
        rw [g1]
      refine ⟨g1, ?_, g3, ?_⟩
      · exact kvGet_insert_self s2 { u with sessionId := s2 }
          (kvDelete u.sessionId db.bySession)
      · unfold stepStore
        simp only [applyOp]
        rw [g3]
    · rw [if_neg hu] at h
      exact Except.noConfusion h

/-- C4 witness: rotating the stored "alice" from "s1" to "s2". -/
theorem claim4_witness :
    ("s2" : String) ≠ c4user.sessionId ∧
    (getUserBySession (stepStore c4db (Op.rotate c4user "s2"))
      c4user.sessionId = none ∧
    getUserBySession (stepStore c4db (Op.rotate c4user "s2")) "s2" =
      some { c4user with sessionId := "s2" } ∧
    updateUserSession (stepStore c4db (Op.rotate c4user "s2")) c4user "s2" =
      .error DbError.staleSession ∧
    stepStore (stepStore c4db (Op.rotate c4user "s2"))
      (Op.rotate c4user "s2") = stepStore c4db (Op.rotate c4user "s2")) :=
  ⟨by decide, claim4_session_rotation c4db c4user "s2" (by decide) rfl⟩

/-- Users for the C8 counterexample: `c8w` already holds session "s2". -/
def c8w : User := ⟨"w", "s2", none, false, ""⟩

/-- The user whose session is rotated in the C8 counterexample. -/
def c8a : User := ⟨"a", "s1", none, false, ""⟩

/-- Store holding `c8w` and `c8a`. -/
def c8db : Store :=
  stepStore (stepStore Store.empty (Op.create c8w)) (Op.create c8a)

/-- C8 counterexample: rotating `c8a` onto the session id "s2" held by the
other user `c8w` succeeds (the model asserts nothing about the new key) and
overwrites `c8w`'s session-index record — so "no record of any other user is
touched" is false as stated. -/
theorem claim8_counterexample :
    (updateUserSession c8db c8a "s2").isOk = true ∧
    getUserBySession c8db "s2" = some c8w ∧
    getUserBySession (stepStore c8db (Op.rotate c8a "s2")) "s2" ≠
      some c8w :=
  ⟨rfl, rfl, by decide⟩

/-- C8 (amended: no session-index entry may exist under the new session id):
a successful `updateSession(user, s2)` onto a free session key changes only
the user's own records — the record under the login and under `s2` is the
input user with only the session field replaced (login, stripeCustomerId,
isSubscribed and the profile payload unchanged), the old session entry is
gone, and every lookup of any other login, session or customer key is
unchanged. -/
theorem claim8_rotation_frame (db : Store) (user : User) (s2 : String)
    (hfresh : getUserBySession db s2 = none) {db' : Store}
    (h : updateUserSession db user s2 = .ok db') :
    getUser db' user.login = some { user with sessionId := s2 } ∧
    getUserBySession db' s2 = some { user with sessionId := s2 } ∧
    ({ user with sessionId := s2 } : User).login = user.login ∧
    ({ user with sessionId := s2 } : User).stripeCustomerId =
      user.stripeCustomerId ∧
    ({ user with sessionId := s2 } : User).isSubscribed = user.isSubscribed ∧
    ({ user with sessionId := s2 } : User).payload = user.payload ∧
    getUserBySession db' user.sessionId = none ∧
    (∀ l, l ≠ user.login → getUser db' l = getUser db l) ∧
    (∀ s, s ≠ user.sessionId → s ≠ s2 →
      getUserBySession db' s = getUserBySession db s) ∧
    (∀ c, getUserByStripeCustomer db' c = getUserByStripeCustomer db c) := by
  have hfresh' : kvGet s2 db.bySession = none := hfresh
  unfold updateUserSession at h
  cases hses : kvGet user.sessionId db.bySession with
  | none =>
    rw [hses] at h
    exact Except.noConfusion h
  | some u =>
    rw [hses] at h
    dsimp only at h
    by_cases hu : u = user
    · rw [if_pos hu] at h
      subst hu
      injection h with h
      subst h
      have hne : u.sessionId ≠ s2 := by
        intro he
        rw [← he] at hfresh'
        rw [hses] at hfresh'
        exact Option.noConfusion hfresh'
      refine ⟨?_, ?_, rfl, rfl, rfl, rfl, ?_, ?_, ?_, ?_⟩
      · exact kvGet_insert_self u.login { u with sessionId := s2 } db.byLogin
      · exact kvGet_insert_self s2 { u with sessionId := s2 }
          (kvDelete u.sessionId db.bySession)
      · show kvGet u.sessionId
          (kvInsert s2 { u with sessionId := s2 }
            (kvDelete u.sessionId db.bySession)) = none
        rw [kvGet_insert_ne hne, kvGet_delete_self]
      · intro l hl
        exact kvGet_insert_ne hl { u with sessionId := s2 } db.byLogin
      · intro s hs1 hs2
        show kvGet s
          (kvInsert s2 { u with sessionId := s2 }
            (kvDelete u.sessionId db.bySession)) = kvGet s db.bySession
        rw [kvGet_insert_ne hs2, kvGet_delete_ne hs1]
      · intro c
        rfl
    · rw [if_neg hu] at h
      exact Except.noConfusion h

/-- C8 witness: rotating the sole user of `oneUserDb` onto the fresh session
id "s9". -/
theorem claim8_witness :
    getUserBySession oneUserDb "s9" = none ∧
    (getUser (stepStore oneUserDb (Op.rotate w2user "s9")) w2user.login =
      some { w2user with sessionId := "s9" } ∧
    getUserBySession (stepStore oneUserDb (Op.rotate w2user "s9")) "s9" =
      some { w2user with sessionId := "s9" } ∧
    ({ w2user with sessionId := "s9" } : User).login = w2user.login ∧
    ({ w2user with sessionId := "s9" } : User).stripeCustomerId =
      w2user.stripeCustomerId ∧
    ({ w2user with sessionId := "s9" } : User).isSubscribed =
      w2user.isSubscribed ∧
    ({ w2user with sessionId := "s9" } : User).payload = w2user.payload ∧
    getUserBySession (stepStore oneUserDb (Op.rotate w2user "s9"))
      w2user.sessionId = none ∧
    (∀ l, l ≠ w2user.login →
      getUser (stepStore oneUserDb (Op.rotate w2user "s9")) l =
        getUser oneUserDb l) ∧
    (∀ s, s ≠ w2user.sessionId → s ≠ "s9" →
      getUserBySession (stepStore oneUserDb (Op.rotate w2user "s9")) s =
        getUserBySession oneUserDb s) ∧
    (∀ c, getUserByStripeCustomer
        (stepStore oneUserDb (Op.rotate w2user "s9")) c =
      getUserByStripeCustomer oneUserDb c)) :=
  ⟨rfl, claim8_rotation_frame oneUserDb w2user "s9" rfl rfl⟩

/-- User for the C1 counterexample. -/
def c1u : User := ⟨"a", "s1", some "c1", false, ""⟩

/-- Store obtained by creating `c1u` and then rotating its session to "s2":
the customer-index entry still holds the record with the old session id. -/
def c1db : Store :=
  stepStore (stepStore Store.empty (Op.create c1u)) (Op.rotate c1u "s2")

/-- C1 counterexample: in the committed state `c1db`, `getByCustomerId("c1")`
returns the pre-rotation record `c1u`, but the stored user under that login is
the rotated record — the returned value does not equal the stored user
exactly, refuting the claimed index consistency for `getByCustomerId`. -/
theorem claim1_counterexample :
    Reachable c1db ∧
    getUserByStripeCustomer c1db "c1" = some c1u ∧
    getUser c1db c1u.login ≠ some c1u :=
  ⟨@Reachable.step _ (Op.rotate c1u "s2") _
      (@Reachable.step _ (Op.create c1u) _ Reachable.empty rfl) rfl,
    rfl, by decide⟩

/-- C1 (amended: restricted to collision-free committed states, and with the
by-customer lookup only guaranteed to agree with the stored user on every
field except possibly `sessionId`): `getBySession(S)` returns a User iff some
stored User has `sessionId = S`, the returned value equals that stored User
exactly, and at most one stored user holds any session id; `getByCustomerId`
satisfies the same existence iff, its returned value agrees with the unique
stored owner of the customer id up to `sessionId`, and at most one stored
user holds any customer id. -/
theorem claim1_index_consistency_safe (db : Store) (h : SafeReachable db) :
    (∀ S : String,
      ((∃ u : User, getUser db u.login = some u ∧ u.sessionId = S) ↔
        (getUserBySession db S).isSome = true) ∧
      (∀ u : User, getUserBySession db S = some u →
        getUser db u.login = some u ∧ u.sessionId = S) ∧
      (∀ u v : User, getUser db u.login = some u → getUser db v.login = some v →
        u.sessionId = S → v.sessionId = S → u = v)) ∧
    (∀ C : String,
      ((∃ u : User, getUser db u.login = some u ∧
          u.stripeCustomerId = some C) ↔
        (getUserByStripeCustomer db C).isSome = true) ∧
      (∀ v : User, getUserByStripeCustomer db C = some v →
        ∃ u : User, getUser db u.login = some u ∧
          u.stripeCustomerId = some C ∧ agrees v u) ∧
      (∀ u v : User, getUser db u.login = some u → getUser db v.login = some v →
        u.stripeCustomerId = some C → v.stripeCustomerId = some C → u = v)) := by
  have hinv := safeReachable_storeInv h
  refine ⟨fun S => storeInv_session_facts hinv S, fun C => ?_⟩
  obtain ⟨hiff, hret, _, huniq⟩ := storeInv_customer_facts hinv C
  exact ⟨hiff, hret, huniq⟩

/-- C1 witness: the amended index consistency at the one-user store,
instantiated at session id "s1" and customer id "c1". -/
theorem claim1_witness :
    (((∃ u : User, getUser oneUserDb u.login = some u ∧ u.sessionId = "s1") ↔
        (getUserBySession oneUserDb "s1").isSome = true) ∧
      (∀ u : User, getUserBySession oneUserDb "s1" = some u →
        getUser oneUserDb u.login = some u ∧ u.sessionId = "s1") ∧
      (∀ u v : User, getUser oneUserDb u.login = some u →
        getUser oneUserDb v.login = some v →
        u.sessionId = "s1" → v.sessionId = "s1" → u = v)) ∧
    (((∃ u : User, getUser oneUserDb u.login = some u ∧
          u.stripeCustomerId = some "c1") ↔
        (getUserByStripeCustomer oneUserDb "c1").isSome = true) ∧
      (∀ v : User, getUserByStripeCustomer oneUserDb "c1" = some v →
        ∃ u : User, getUser oneUserDb u.login = some u ∧
          u.stripeCustomerId = some "c1" ∧ agrees v u) ∧
      (∀ u v : User, getUser oneUserDb u.login = some u →
        getUser oneUserDb v.login = some v →
        u.stripeCustomerId = some "c1" → v.stripeCustomerId = some "c1" →
        u = v)) :=
  ⟨(claim1_index_consistency_safe oneUserDb
      (@SafeReachable.create Store.empty w2user oneUserDb
        SafeReachable.empty rfl)).1 "s1",
    (claim1_index_consistency_safe oneUserDb
      (@SafeReachable.create Store.empty w2user oneUserDb
        SafeReachable.empty rfl)).2 "c1"⟩

/-- First user of the C6 counterexample, holding customer id "c1". -/
def c6a : User := ⟨"a", "sa", some "c1", false, ""⟩

/-- Second user of the C6 counterexample, holding customer id "c2". -/
def c6b : User := ⟨"b", "sb", some "c2", false, ""⟩

/-- The update that moves the first user onto the second user's customer id. -/
def c6a2 : User := ⟨"a", "sa", some "c2", false, ""⟩

/-- Store reached by creating both users and then updating the first user's
stripeCustomerId to "c2" — the collision the spec's open question flags. -/
def c6db : Store :=
  stepStore
    (stepStore (stepStore Store.empty (Op.create c6a)) (Op.create c6b))
    (Op.update c6a2)

/-- C6 counterexample: in the reachable state `c6db`, two distinct stored
users both hold stripeCustomerId "c2", and the by-customer record for "c2" no
longer equals the second user — `update` clobbered it without any uniqueness
check, refuting the claimed invariant. -/
theorem claim6_counterexample :
    Reachable c6db ∧
    getUser c6db "a" = some c6a2 ∧
    getUser c6db "b" = some c6b ∧
    c6a2.stripeCustomerId = some "c2" ∧
    c6b.stripeCustomerId = some "c2" ∧
    c6a2 ≠ c6b ∧
    getUserByStripeCustomer c6db "c2" ≠ some c6b :=
  ⟨@Reachable.step _ (Op.update c6a2) _
      (@Reachable.step _ (Op.create c6b) _
        (@Reachable.step _ (Op.create c6a) _ Reachable.empty rfl) rfl) rfl,
    rfl, rfl, rfl, rfl, by decide, by decide⟩

/-- C6 (amended: restricted to collision-free committed states — operation
sequences in which no `update` moves a user onto a customer or session key
held by another user — and with the by-customer record only guaranteed to
agree with the stored user up to `sessionId`): every stored user with a
defined stripeCustomerId owns exactly one by-customer record, that record
agrees with the user on every field except possibly `sessionId`, and no other
stored user holds the same customer id. -/
theorem claim6_customer_uniqueness_safe (db : Store) (h : SafeReachable db) :
    ∀ u : User, ∀ C : String, getUser db u.login = some u →
      u.stripeCustomerId = some C →
      (∃ v : User, getUserByStripeCustomer db C = some v ∧ agrees v u) ∧
      (∀ w : User, getUser db w.login = some w →
        w.stripeCustomerId = some C → w = u) := by
  have hinv := safeReachable_storeInv h
  intro u C hu huC
  obtain ⟨_, _, howner, huniq⟩ := storeInv_customer_facts hinv C
  exact ⟨howner u hu huC, fun w hw hwC => huniq w u hw hu hwC huC⟩

/-- C6 witness: customer-id uniqueness at the one-user store, instantiated
at the stored user and its customer id "c1". -/
theorem claim6_witness :
    getUser oneUserDb w2user.login = some w2user ∧
    w2user.stripeCustomerId = some "c1" ∧
    ((∃ v : User, getUserByStripeCustomer oneUserDb "c1" = some v ∧
        agrees v w2user) ∧
      (∀ w : User, getUser oneUserDb w.login = some w →
        w.stripeCustomerId = some "c1" → w = w2user)) :=
  ⟨rfl, rfl,
    claim6_customer_uniqueness_safe oneUserDb
      (@SafeReachable.create Store.empty w2user oneUserDb
        SafeReachable.empty rfl) w2user "c1" rfl rfl⟩

/-- How an operation delivers a logical failure to its caller. -/
inductive FailureDelivery
  | thrownError
  | typedOutcome
  deriving DecidableEq, Repr

/-- Modelled from the source tests (src/unnamed/part_000, line 22): a
duplicate `createUser` is observed with `assertRejects` — the failure is a
thrown error / rejected promise, not a returned outcome value. -/
def createUserFailureDelivery : FailureDelivery := .thrownError

/-- Modelled from the source tests (src/unnamed/part_000, lines 46-50): a
stale `updateUserSession` is observed with a rejection carrying `Error` and
the message "Failed to update user session" — a thrown generic error. -/
def updateUserSessionFailureDelivery : FailureDelivery := .thrownError

/-- Modelled from the source tests: the message of the generic `Error` thrown
by a failed `updateUserSession`. -/
def updateUserSessionFailureMessage : String := "Failed to update user session"

/-- Modelled from the source tests: `updateUserSession` as a JS caller
observes it — success yields the new store, and every logical failure
surfaces as the one thrown generic `Error` message. -/
def updateUserSessionJs (db : Store) (user : User) (s : String) :
    Except String Store :=
  match updateUserSession db user s with
  | .ok db' => .ok db'
  | .error _ => .error updateUserSessionFailureMessage

/-- C7 counterexample: both failure paths the repository's tests pin down are
delivered as thrown errors, not as returned typed outcome values, and a
concrete stale rotation surfaces as the generic message error — refuting
"returned as a typed outcome value, never thrown". -/
theorem claim7_counterexample :
    createUserFailureDelivery ≠ FailureDelivery.typedOutcome ∧
    updateUserSessionFailureDelivery ≠ FailureDelivery.typedOutcome ∧
    updateUserSessionJs Store.empty c4user "s9" =
      .error "Failed to update user session" :=
  ⟨by decide, by decide, rfl⟩

/-- C7 (amended): logical failures are thrown, not returned as typed
outcomes — every failing `updateUserSession` call surfaces to its caller as
the thrown generic `Error` with message "Failed to update user session"
(both stale-session causes produce the same error), the delivery mechanism
recorded from the tests being the thrown error. -/
theorem claim7_thrown_failures (db : Store) (user : User) (s : String)
    (h : (updateUserSession db user s).isOk = false) :
    updateUserSessionJs db user s =
      .error "Failed to update user session" ∧
    updateUserSessionFailureDelivery = FailureDelivery.thrownError := by
  refine ⟨?_, rfl⟩
  unfold updateUserSessionJs
  cases he : updateUserSession db user s with
  | ok d =>
    rw [he] at h
    exact Bool.noConfusion h
  | error e => rfl

/-- C7 witness: a stale rotation on the empty store rejects with the thrown
generic error. -/
theorem claim7_witness :
    (updateUserSession Store.empty c4user "s9").isOk = false ∧
    (updateUserSessionJs Store.empty c4user "s9" =
        .error "Failed to update user session" ∧
      updateUserSessionFailureDelivery = FailureDelivery.thrownError) :=
  ⟨rfl, claim7_thrown_failures Store.empty c4user "s9" rfl⟩

/-- C9: on every committed state and with a positive page size, `listUsers`
returns at most `limit` records per call, the cursor-following full scan
(`collectValues`) returns exactly the stored primary records in storage key
order, every stored user appears in the full scan, and the scan is ordered by
login. -/
theorem claim9_list_users (db : Store) (limit : Nat) (hr : Reachable db)
    (hpos : 0 < limit) :
    (∀ cursor, ((listUsers db cursor limit).1).length ≤ limit) ∧
    collectValues db limit = db.byLogin.map Prod.snd ∧
    (∀ u : User, getUser db u.login = some u → u ∈ collectValues db limit) ∧
    List.Pairwise (fun a b : User => keyLt a.login b.login)
      (collectValues db limit) := by
  obtain ⟨hsL, _, _, hkey⟩ := reachable_storeBasic hr
  refine ⟨?_, collectValues_eq hsL hpos, ?_, ?_⟩
  · intro cursor
    unfold listUsers
    dsimp only
    rw [List.length_map, List.length_take]
    exact min_le_left _ _
  · intro u hu
    rw [collectValues_eq hsL hpos]
    exact List.mem_map_of_mem Prod.snd (mem_of_kvGet hu)
  · rw [collectValues_eq hsL hpos, List.pairwise_map]
    refine List.Pairwise.imp_of_mem ?_ hsL
    intro p q hp hq hlt
    rw [hkey p hp, hkey q hq]
    exact hlt

/-- C9 witness: the listing properties at the one-user store with page size
one. -/
theorem claim9_witness :
    0 < 1 ∧
    ((∀ cursor, ((listUsers oneUserDb cursor 1).1).length ≤ 1) ∧
    collectValues oneUserDb 1 = oneUserDb.byLogin.map Prod.snd ∧
    (∀ u : User, getUser oneUserDb u.login = some u →
      u ∈ collectValues oneUserDb 1) ∧
    List.Pairwise (fun a b : User => keyLt a.login b.login)
      (collectValues oneUserDb 1)) :=
  ⟨Nat.one_pos,
    claim9_list_users oneUserDb 1
      (@Reachable.step Store.empty (Op.create w2user) oneUserDb
        Reachable.empty rfl) Nat.one_pos⟩
